import Mathlib

/-!
# GoNSQCounter: the vote counter of `main.go`

A shallow embedding of the two closures of `main` that touch the shared map
`counts` (the NSQ handler and the `updater` timer callback) and of the
select loop that ends the program, followed by the properties settled about
them.

Modelling decisions:

* `map[string]int` is an association list of `(key, value)` pairs; the nil
  map is `none`.  The order of the list stands for the order in which
  `range` visits the entries, which Go leaves unspecified: `tick_perm` shows
  that the outcome of a tick does not depend on it.
* Go's `int` is taken to be 64 bits wide; `counts[vote]++` wraps around
  (`wrapInt`).
* The payload `m.Body` and the Go string `string(m.Body)` are the same
  bytes; both are a `String` here.
* `pollData.UpdateAll` belongs to the MongoDB driver.  It is a parameter
  `db` of the tick: `db call = true` means that the call returned a nil
  error.  The list of calls made is part of the result of a tick.
* `log.Println` is not modelled.
-/

namespace GoNSQCounter

/-! ## Go integers -/

/-- Smallest value of a 64-bit Go `int`. -/
def intMin : Int := -9223372036854775808

/-- Largest value of a 64-bit Go `int`. -/
def intMax : Int := 9223372036854775807

/-- Two's complement wrap-around of a mathematical integer into the range
of a 64-bit Go `int`. -/
def wrapInt (x : Int) : Int :=
  (x + 9223372036854775808) % 18446744073709551616 - 9223372036854775808

/-! ## The map `counts` -/

/-- Entries of a non-nil `map[string]int`, in iteration order. -/
abbrev Entries := List (String × Int)

/-- The value `var counts map[string]int`: `none` is the nil map. -/
abbrev Counts := Option Entries

/-- Keys of the entries. -/
def keys (es : Entries) : List String := es.map Prod.fst

/-- Go `m[key]` on a non-nil map: the zero value when the key is absent. -/
def mapGet : Entries → String → Int
  | [], _ => 0
  | (k, v) :: es, key => if k = key then v else mapGet es key

/-- Go `m[key] = v` on a non-nil map. -/
def mapSet : Entries → String → Int → Entries
  | [], key, v => [(key, v)]
  | (k, w) :: es, key, v =>
    if k = key then (k, v) :: es else (k, w) :: mapSet es key v

/-- Go `len(counts)`; the length of the nil map is 0. -/
def lenCounts : Counts → Nat
  | none => 0
  | some es => es.length

/-- Go `counts[key]` as a read; reading the nil map gives 0. -/
def readCount : Counts → String → Int
  | none, _ => 0
  | some es, key => mapGet es key

/-- Whether `key` has an entry in the map. -/
def hasKey : Counts → String → Prop
  | none, _ => False
  | some es, key => key ∈ keys es

/-- A map holds each key at most once. -/
def WF : Counts → Prop
  | none => True
  | some es => (keys es).Nodup

/-! ## The NSQ handler (`main.go` lines 66-77) -/

/-- The handler registered with `q.AddHandler`: `body` is `m.Body`, the
result is the new value of `counts` and the returned `error` (`none` is
Go's `nil`). -/
def handler (counts : Counts) (body : String) : Counts × Option String :=
  let counts : Entries :=
    match counts with
    | none => []
    | some es => es
  let vote := body
  (some (mapSet counts vote (wrapInt (mapGet counts vote + 1))), none)

/-! ## The timer callback (`main.go` lines 86-113) -/

/-- The duration `1 * time.Second`, in nanoseconds. -/
def updateDuration : Nat := 1 * 1000000000

/-- The selector `bson.M{"options": bson.M{"$in": []string{option}}}`. -/
structure Sel where
  optionsIn : List String
  deriving DecidableEq, Repr

/-- The update `bson.M{"$inc": bson.M{"results." + option: count}}`. -/
structure Up where
  incField : String
  incBy : Int
  deriving DecidableEq, Repr

/-- One call `pollData.UpdateAll(sel, up)`. -/
structure UpdateCall where
  sel : Sel
  up : Up
  deriving DecidableEq, Repr

/-- The call the loop body builds for the pair `(option, count)`. -/
def mkCall (option : String) (count : Int) : UpdateCall :=
  { sel := { optionsIn := [option] },
    up := { incField := "results." ++ option, incBy := count } }

/-- The loop `for option, count := range counts`: `todo` are the entries
still to visit, `m` the map, `ok` the flag and `calls` the calls made so
far. -/
def updateLoop (db : UpdateCall → Bool) :
    Entries → Entries → Bool → List UpdateCall → Entries × Bool × List UpdateCall
  | [], m, ok, calls => (m, ok, calls)
  | (option, count) :: todo, m, ok, calls =>
    if db (mkCall option count) then
      updateLoop db todo (mapSet m option 0) ok (calls ++ [mkCall option count])
    else
      updateLoop db todo m false (calls ++ [mkCall option count])

/-- What one run of the timer callback does. -/
structure TickResult where
  /-- Value of `counts` when the callback returns. -/
  counts : Counts
  /-- The `UpdateAll` calls made, in order. -/
  calls : List UpdateCall
  /-- Whether the branch `len(counts) == 0` was taken. -/
  skipped : Bool
  /-- Argument of the `updater.Reset` call that ends the callback. -/
  reset : Nat
  deriving DecidableEq, Repr

/-- The function given to `time.AfterFunc`. -/
def tick (db : UpdateCall → Bool) (counts : Counts) : TickResult :=
  if lenCounts counts = 0 then
    { counts := counts, calls := [], skipped := true, reset := updateDuration }
  else
    match counts with
    | none => { counts := none, calls := [], skipped := true, reset := updateDuration }
    | some es =>
      let r := updateLoop db es es true []
      { counts := if r.2.1 then none else some r.1,
        calls := r.2.2,
        skipped := false,
        reset := updateDuration }

/-! ## Runs of the program over `counts` -/

/-- A step of the program as seen from `counts`: a message delivered to the
handler, or a run of the timer callback against a store answering `db`. -/
inductive Step where
  | vote (option : String)
  | tick (db : UpdateCall → Bool)

/-- Value of `counts` after the steps, from `counts`. -/
def exec : Counts → List Step → Counts
  | s, [] => s
  | s, Step.vote o :: tr => exec (handler s o).1 tr
  | s, Step.tick db :: tr => exec (tick db s).counts tr

/-- Value of `counts` after the handler received the payloads in turn. -/
def deliver : Counts → List String → Counts
  | s, [] => s
  | s, v :: vs => deliver (handler s v).1 vs

/-- Number of vote steps for `option` in a run. -/
def votes (option : String) : List Step → Nat
  | [] => 0
  | Step.vote o :: tr => (if o = option then 1 else 0) + votes option tr
  | Step.tick _ :: tr => votes option tr

/-- Sum of the counts that the calls for `option` passed, over the calls in
`calls` that succeeded. -/
def appliedIn (option : String) (db : UpdateCall → Bool) (calls : List UpdateCall) : Int :=
  ((calls.filter (fun c => db c && decide (c.sel = { optionsIn := [option] }))).map
    (fun c => c.up.incBy)).sum

/-- Sum of the counts passed to the successful update calls for `option`
during a run that starts from `counts`. -/
def applied (option : String) : Counts → List Step → Int
  | _, [] => 0
  | s, Step.vote o :: tr => applied option (handler s o).1 tr
  | s, Step.tick db :: tr =>
    appliedIn option db (tick db s).calls + applied option (tick db s).counts tr

/-! ## Vocabulary of the statements -/

/-- Entries of a map; the nil map has none. -/
def entriesOf : Counts → Entries
  | none => []
  | some es => es

/-- The call made for an entry. -/
def callOf (p : String × Int) : UpdateCall := mkCall p.1 p.2

/-- What the loop leaves of an entry: value 0 when its update succeeded,
the entry as it was otherwise. -/
def settle (db : UpdateCall → Bool) (p : String × Int) : String × Int :=
  if db (callOf p) then (p.1, 0) else p

/-- Two values of `counts` that differ at most in the order of their
entries. -/
def sameMap : Counts → Counts → Prop
  | none, none => True
  | some a, some b => a.Perm b
  | _, _ => False

/-! ## Shutdown (`main.go` lines 85-128)

The timer `updater` and the select loop at the end of `main`, as a
transition system.  `time.Timer` and the consumer `q` belong to libraries:
the timer follows the documentation of package `time` (`Stop` keeps a
waiting timer from firing and does not wait for a callback that already
runs; `Reset` makes the timer fire after the given duration, also when it
had fired or was stopped), and `q.StopChan` may close at any moment. -/

/-- A timer made by `time.AfterFunc`: `armed d` waits to fire after `d`,
`idle` has fired or was stopped. -/
inductive Timer where
  | idle
  | armed (d : Nat)
  deriving DecidableEq, Repr

/-- The call `t.Reset(d)`. -/
def Timer.Reset (_t : Timer) (d : Nat) : Timer := Timer.armed d

/-- The call `t.Stop()`. -/
def Timer.Stop (_t : Timer) : Timer := Timer.idle

/-- State of the process as far as shutdown is concerned. -/
structure Proc where
  /-- The timer `updater`. -/
  updater : Timer
  /-- A run of the timer callback is in flight. -/
  ticking : Bool
  /-- Number of runs of the callback started so far. -/
  cycles : Nat
  /-- The case `<-termChan` of the select loop has run. -/
  signalled : Bool
  /-- The consumer was told to stop (`q.Stop()`). -/
  qStopping : Bool
  /-- The channel `q.StopChan` is closed. -/
  stopChan : Bool
  /-- The function `main` has returned. -/
  returned : Bool
  deriving DecidableEq, Repr

/-- What can happen to the process. -/
inductive Event where
  /-- The timer fires: a run of the callback starts. -/
  | fire
  /-- The running callback reaches `updater.Reset(updateDuration)` and ends. -/
  | complete
  /-- The select loop takes `case <-termChan`: `updater.Stop()`, `q.Stop()`. -/
  | signal
  /-- The consumer closes `q.StopChan`. -/
  | stopChanCloses
  /-- The select loop takes `case <-q.StopChan` and `main` returns. -/
  | mainReturns
  deriving DecidableEq, Repr

/-- State after `updater = time.AfterFunc(updateDuration, ...)`, when `main`
enters the select loop. -/
def Proc.init : Proc :=
  { updater := Timer.armed updateDuration, ticking := false, cycles := 0,
    signalled := false, qStopping := false, stopChan := false, returned := false }

/-- One event; `none` when the event cannot happen in the state.  Nothing
happens once `main` has returned. -/
def Proc.step (s : Proc) : Event → Option Proc
  | Event.fire =>
    match s.updater with
    | Timer.armed _ =>
      if s.returned then none
      else some { s with updater := Timer.idle, ticking := true, cycles := s.cycles + 1 }
    | Timer.idle => none
  | Event.complete =>
    if s.ticking && !s.returned then
      some { s with updater := s.updater.Reset updateDuration, ticking := false }
    else none
  | Event.signal =>
    if s.returned then none
    else some { s with updater := s.updater.Stop, signalled := true, qStopping := true }
  | Event.stopChanCloses =>
    if s.stopChan || s.returned then none else some { s with stopChan := true }
  | Event.mainReturns =>
    if s.stopChan && !s.returned then some { s with returned := true } else none

/-- A sequence of events, from a state. -/
def Proc.run : Proc → List Event → Option Proc
  | s, [] => some s
  | s, e :: es =>
    match s.step e with
    | none => none
    | some t => Proc.run t es

/-! ## Facts about the map operations -/

theorem wrapInt_of_range (x : Int) (h1 : intMin ≤ x) (h2 : x ≤ intMax) : wrapInt x = x := by
  unfold wrapInt
  unfold intMin at h1
  unfold intMax at h2
  omega

theorem wrapInt_range (x : Int) : intMin ≤ wrapInt x ∧ wrapInt x ≤ intMax := by
  unfold wrapInt intMin intMax
  omega

theorem wrapInt_eq_self_iff (x : Int) : wrapInt x = x ↔ intMin ≤ x ∧ x ≤ intMax := by
  unfold wrapInt intMin intMax
  omega

theorem wrapInt_sub_self (x : Int) : wrapInt (x - wrapInt x) = 0 := by
  unfold wrapInt
  omega

theorem wrapInt_succ (x : Int) : wrapInt (wrapInt x + 1) = wrapInt (x + 1) := by
  unfold wrapInt
  omega

theorem mapGet_cons (p : String × Int) (es : Entries) (o : String) :
    mapGet (p :: es) o = if p.1 = o then p.2 else mapGet es o := by
  obtain ⟨a, b⟩ := p
  rfl

theorem mapGet_mapSet_same (es : Entries) (k : String) (v : Int) :
    mapGet (mapSet es k v) k = v := by
  induction es with
  | nil => simp [mapSet, mapGet]
  | cons p es ih =>
    obtain ⟨a, b⟩ := p
    by_cases h : a = k
    · simp [mapSet, mapGet, h]
    · simp [mapSet, mapGet, h, ih]

theorem mapGet_mapSet_other (es : Entries) (k o : String) (v : Int) (h : o ≠ k) :
    mapGet (mapSet es k v) o = mapGet es o := by
  induction es with
  | nil =>
    have h2 : ¬ k = o := fun e => h e.symm
    simp [mapSet, mapGet, h2]
  | cons p es ih =>
    obtain ⟨a, b⟩ := p
    by_cases h1 : a = k
    · have h2 : ¬ a = o := fun e => h (e.symm.trans h1)
      have h3 : ¬ k = o := fun e => h e.symm
      simp [mapSet, mapGet, h1, h3]
    · by_cases h2 : a = o
      · subst h2
        simp [mapSet, mapGet, h]
      · simp [mapSet, mapGet, h1, h2, ih]

theorem mem_keys_mapSet (es : Entries) (k o : String) (v : Int) :
    o ∈ keys (mapSet es k v) ↔ o = k ∨ o ∈ keys es := by
  induction es with
  | nil => simp [mapSet, keys]
  | cons p es ih =>
    obtain ⟨a, b⟩ := p
    by_cases h1 : a = k
    · subst h1
      simp [mapSet, keys]
    · have ih2 : o ∈ List.map Prod.fst (mapSet es k v) ↔ o = k ∨ o ∈ List.map Prod.fst es := ih
      simp only [mapSet, h1, if_false, keys, List.map_cons, List.mem_cons, ih2]
      tauto

theorem nodup_keys_mapSet (es : Entries) (k : String) (v : Int) (h : (keys es).Nodup) :
    (keys (mapSet es k v)).Nodup := by
  induction es with
  | nil => simp [mapSet, keys]
  | cons p es ih =>
    obtain ⟨a, b⟩ := p
    have h0 : a ∉ keys es ∧ (keys es).Nodup := by
      simpa [keys] using h
    by_cases h1 : a = k
    · simpa [mapSet, h1, keys] using h
    · have hm : a ∉ keys (mapSet es k v) := by
        rw [mem_keys_mapSet]
        intro hh
        rcases hh with hh | hh
        · exact h1 hh
        · exact h0.1 hh
      have hn := ih h0.2
      simp only [mapSet, h1, if_false]
      exact List.nodup_cons.mpr ⟨hm, hn⟩

theorem mapGet_of_not_mem (es : Entries) (o : String) (h : o ∉ keys es) : mapGet es o = 0 := by
  induction es with
  | nil => simp [mapGet]
  | cons p es ih =>
    obtain ⟨a, b⟩ := p
    have h0 : ¬ o = a ∧ o ∉ keys es := by
      simpa [keys] using h
    have h1 : ¬ a = o := fun e => h0.1 e.symm
    simp [mapGet, h1, ih h0.2]

theorem mapGet_of_mem (es : Entries) (o : String) (c : Int) (hn : (keys es).Nodup)
    (h : (o, c) ∈ es) : mapGet es o = c := by
  induction es with
  | nil => simp at h
  | cons p es ih =>
    obtain ⟨a, b⟩ := p
    have h0 : a ∉ keys es ∧ (keys es).Nodup := by
      simpa [keys] using hn
    rcases List.mem_cons.mp h with h1 | h1
    · have ha : a = o := by
        have := congrArg Prod.fst h1
        exact this.symm
      have hb : b = c := by
        have := congrArg Prod.snd h1
        exact this.symm
      simp [mapGet, ha, hb]
    · have hk : o ∈ keys es := List.mem_map.mpr ⟨(o, c), h1, rfl⟩
      have hne : ¬ a = o := fun e => h0.1 (e ▸ hk)
      simp [mapGet, hne, ih h0.2 h1]

theorem mapSet_append_of_not_mem (l1 l2 : Entries) (o : String) (c v : Int)
    (h : o ∉ keys l1) : mapSet (l1 ++ (o, c) :: l2) o v = l1 ++ (o, v) :: l2 := by
  induction l1 with
  | nil => simp [mapSet]
  | cons p l1 ih =>
    obtain ⟨a, b⟩ := p
    have h0 : ¬ o = a ∧ o ∉ keys l1 := by
      simpa [keys] using h
    have h1 : ¬ a = o := fun e => h0.1 e.symm
    simp [mapSet, h1, ih h0.2]

/-! ## The loop and the tick in closed form -/

theorem settle_fst (db : UpdateCall → Bool) (p : String × Int) : (settle db p).1 = p.1 := by
  unfold settle
  split <;> rfl

theorem keys_map_settle (db : UpdateCall → Bool) (es : Entries) :
    keys (es.map (settle db)) = keys es := by
  induction es with
  | nil => rfl
  | cons p es ih =>
    have ih2 : List.map Prod.fst (List.map (settle db) es) = List.map Prod.fst es := ih
    simp only [keys, List.map_cons, settle_fst, ih2]

theorem updateLoop_calls (db : UpdateCall → Bool) (todo m : Entries) (ok : Bool)
    (calls : List UpdateCall) :
    (updateLoop db todo m ok calls).2.2 = calls ++ todo.map callOf := by
  induction todo generalizing m ok calls with
  | nil => simp [updateLoop]
  | cons p todo ih =>
    obtain ⟨o, c⟩ := p
    unfold updateLoop
    split
    · rw [ih]
      simp [callOf]
    · rw [ih]
      simp [callOf]

theorem updateLoop_ok (db : UpdateCall → Bool) (todo m : Entries) (ok : Bool)
    (calls : List UpdateCall) :
    (updateLoop db todo m ok calls).2.1 = (ok && todo.all (fun p => db (callOf p))) := by
  induction todo generalizing m ok calls with
  | nil => simp [updateLoop]
  | cons p todo ih =>
    obtain ⟨o, c⟩ := p
    unfold updateLoop
    split
    · rename_i h
      rw [ih]
      simp [callOf, h]
    · rename_i h
      rw [ih]
      simp [callOf, h]

theorem updateLoop_map (db : UpdateCall → Bool) (pre todo : Entries) (ok : Bool)
    (calls : List UpdateCall) (hn : (keys (pre ++ todo)).Nodup) :
    (updateLoop db todo (pre.map (settle db) ++ todo) ok calls).1
      = (pre ++ todo).map (settle db) := by
  induction todo generalizing pre ok calls with
  | nil => simp [updateLoop]
  | cons p todo ih =>
    obtain ⟨o, c⟩ := p
    have hn2 : (keys ((pre ++ [(o, c)]) ++ todo)).Nodup := by
      simpa using hn
    have hnot : o ∉ keys (pre.map (settle db)) := by
      rw [keys_map_settle]
      have h1 : (keys pre ++ (o :: keys todo)).Nodup := by
        simpa [keys] using hn
      have h2 := (List.nodup_append.mp h1).2.2
      intro hmem
      exact h2 hmem (List.mem_cons_self o _)
    unfold updateLoop
    split
    · rename_i h
      rw [mapSet_append_of_not_mem _ _ _ _ _ hnot]
      have e : pre.map (settle db) ++ (o, 0) :: todo
          = (pre ++ [(o, c)]).map (settle db) ++ todo := by
        simp [settle, callOf, h]
      rw [e, ih _ _ _ hn2]
      simp
    · rename_i h
      have e : pre.map (settle db) ++ (o, c) :: todo
          = (pre ++ [(o, c)]).map (settle db) ++ todo := by
        simp [settle, callOf, h]
      rw [e, ih _ _ _ hn2]
      simp

theorem tick_calls (db : UpdateCall → Bool) (s : Counts) :
    (tick db s).calls = (entriesOf s).map callOf := by
  cases s with
  | none => simp [tick, lenCounts, entriesOf]
  | some es =>
    cases es with
    | nil => simp [tick, lenCounts, entriesOf]
    | cons p es => simp [tick, lenCounts, entriesOf, updateLoop_calls]

theorem tick_skipped (db : UpdateCall → Bool) (s : Counts) :
    (tick db s).skipped = decide (lenCounts s = 0) := by
  cases s with
  | none => simp [tick, lenCounts]
  | some es =>
    cases es with
    | nil => simp [tick, lenCounts]
    | cons p es => simp [tick, lenCounts]

theorem tick_counts_skip (db : UpdateCall → Bool) (s : Counts) (h : lenCounts s = 0) :
    (tick db s).counts = s := by
  simp [tick, h]

theorem tick_counts_ok (db : UpdateCall → Bool) (es : Entries) (hne : es ≠ [])
    (hall : es.all (fun p => db (callOf p)) = true) :
    (tick db (some es)).counts = none := by
  have hl : ¬ es.length = 0 := by
    intro h
    exact hne (List.length_eq_zero.mp h)
  simp only [tick, lenCounts, hl, if_false, updateLoop_ok, hall, Bool.and_self, if_true]

theorem tick_counts_failed (db : UpdateCall → Bool) (es : Entries) (hn : (keys es).Nodup)
    (hall : es.all (fun p => db (callOf p)) = false) :
    (tick db (some es)).counts = some (es.map (settle db)) := by
  have hne : es ≠ [] := by
    intro h
    subst h
    simp at hall
  have hl : ¬ es.length = 0 := by
    intro h
    exact hne (List.length_eq_zero.mp h)
  have hm := updateLoop_map db [] es true [] (by simpa using hn)
  simp only [List.map_nil, List.nil_append] at hm
  simp only [tick, lenCounts, hl, if_false, updateLoop_ok, hall, Bool.and_false, hm]
  simp

/-! ## Counts before and after a tick -/

theorem mem_keys_iff (es : Entries) (o : String) : o ∈ keys es ↔ ∃ c, (o, c) ∈ es := by
  constructor
  · intro h
    obtain ⟨p, hp, hpo⟩ := List.mem_map.mp h
    obtain ⟨a, b⟩ := p
    have e : a = o := hpo
    subst e
    exact ⟨b, hp⟩
  · intro h
    obtain ⟨c, hc⟩ := h
    exact List.mem_map.mpr ⟨(o, c), hc, rfl⟩

theorem mapGet_settle (db : UpdateCall → Bool) (es : Entries) (o : String) (c : Int)
    (hn : (keys es).Nodup) (h : (o, c) ∈ es) :
    mapGet (es.map (settle db)) o = if db (mkCall o c) then 0 else c := by
  have hn2 : (keys (es.map (settle db))).Nodup := by
    rw [keys_map_settle]
    exact hn
  have hm : settle db (o, c) ∈ es.map (settle db) := List.mem_map.mpr ⟨(o, c), h, rfl⟩
  by_cases hd : db (mkCall o c) = true
  · have e : settle db (o, c) = (o, 0) := by simp [settle, callOf, hd]
    rw [e] at hm
    rw [mapGet_of_mem _ _ _ hn2 hm]
    simp [hd]
  · have e : settle db (o, c) = (o, c) := by simp [settle, callOf, hd]
    rw [e] at hm
    rw [mapGet_of_mem _ _ _ hn2 hm]
    simp [hd]

theorem mapGet_settle_all (db : UpdateCall → Bool) (es : Entries) (o : String)
    (hall : es.all (fun p => db (callOf p)) = true) :
    mapGet (es.map (settle db)) o = 0 := by
  induction es with
  | nil => simp [mapGet]
  | cons p es ih =>
    have h0 : db (callOf p) = true ∧ es.all (fun p => db (callOf p)) = true := by
      simpa using hall
    have e : settle db p = (p.1, 0) := by simp [settle, h0.1]
    rw [List.map_cons, e, mapGet_cons, ih h0.2]
    simp

theorem appliedIn_cons (o : String) (db : UpdateCall → Bool) (k : String) (v : Int)
    (rest : List UpdateCall) :
    appliedIn o db (callOf (k, v) :: rest)
      = (if db (mkCall k v) = true ∧ k = o then v else 0) + appliedIn o db rest := by
  have hs : (mkCall k v).sel = { optionsIn := [k] } := rfl
  have hu : (mkCall k v).up.incBy = v := rfl
  by_cases h1 : db (mkCall k v) = true
  · by_cases h2 : k = o
    · subst h2
      simp [appliedIn, callOf, List.filter_cons, h1, hs, hu]
    · simp [appliedIn, callOf, List.filter_cons, h1, h2, hs, hu]
  · simp [appliedIn, callOf, List.filter_cons, h1]

theorem appliedIn_of_not_mem (o : String) (db : UpdateCall → Bool) (es : Entries)
    (h : o ∉ keys es) : appliedIn o db (es.map callOf) = 0 := by
  induction es with
  | nil => simp [appliedIn]
  | cons p es ih =>
    obtain ⟨a, b⟩ := p
    have h0 : ¬ o = a ∧ o ∉ keys es := by
      simpa [keys] using h
    have h1 : ¬ a = o := fun e => h0.1 e.symm
    rw [List.map_cons, appliedIn_cons, ih h0.2]
    simp [h1]

theorem mapGet_settle_balance (db : UpdateCall → Bool) (es : Entries) (o : String)
    (hn : (keys es).Nodup) :
    mapGet (es.map (settle db)) o = mapGet es o - appliedIn o db (es.map callOf) := by
  induction es with
  | nil => simp [mapGet, appliedIn]
  | cons p es ih =>
    obtain ⟨a, b⟩ := p
    have h0 : a ∉ keys es ∧ (keys es).Nodup := by
      simpa [keys] using hn
    rw [List.map_cons, List.map_cons, appliedIn_cons]
    by_cases h1 : a = o
    · subst h1
      rw [appliedIn_of_not_mem _ _ _ h0.1]
      rw [mapGet_cons, mapGet_cons, settle_fst]
      by_cases hd : db (mkCall a b) = true
      · simp [settle, callOf, hd]
      · simp [settle, callOf, hd]
    · rw [mapGet_cons, mapGet_cons, settle_fst, ih h0.2]
      simp [h1]

theorem tick_balance (db : UpdateCall → Bool) (s : Counts) (o : String) (hw : WF s) :
    readCount (tick db s).counts o = readCount s o - appliedIn o db (tick db s).calls := by
  rw [tick_calls]
  cases s with
  | none => simp [tick, lenCounts, readCount, entriesOf, appliedIn]
  | some es =>
    have hn : (keys es).Nodup := hw
    by_cases hall : es.all (fun p => db (callOf p)) = true
    · by_cases hne : es = []
      · subst hne
        simp [tick, lenCounts, readCount, entriesOf, appliedIn]
      · rw [tick_counts_ok db es hne hall]
        have h1 := mapGet_settle_balance db es o hn
        rw [mapGet_settle_all db es o hall] at h1
        simp only [readCount, entriesOf]
        exact h1
    · have hall2 : es.all (fun p => db (callOf p)) = false := by
        simpa using hall
      rw [tick_counts_failed db es hn hall2]
      simp only [readCount, entriesOf]
      exact mapGet_settle_balance db es o hn

theorem tick_WF (db : UpdateCall → Bool) (s : Counts) (hw : WF s) : WF (tick db s).counts := by
  cases s with
  | none => simp [tick, lenCounts, WF]
  | some es =>
    have hn : (keys es).Nodup := hw
    by_cases hall : es.all (fun p => db (callOf p)) = true
    · by_cases hne : es = []
      · subst hne
        simp [tick, lenCounts, WF, keys]
      · rw [tick_counts_ok db es hne hall]
        trivial
    · have hall2 : es.all (fun p => db (callOf p)) = false := by
        simpa using hall
      rw [tick_counts_failed db es hn hall2]
      show (keys (es.map (settle db))).Nodup
      rw [keys_map_settle]
      exact hn

theorem tick_read (db : UpdateCall → Bool) (s : Counts) (o : String) (hw : WF s) :
    readCount (tick db s).counts o = readCount s o ∨ readCount (tick db s).counts o = 0 := by
  cases s with
  | none => simp [tick, lenCounts, readCount]
  | some es =>
    have hn : (keys es).Nodup := hw
    by_cases hall : es.all (fun p => db (callOf p)) = true
    · by_cases hne : es = []
      · subst hne
        simp [tick, lenCounts, readCount]
      · rw [tick_counts_ok db es hne hall]
        right
        rfl
    · have hall2 : es.all (fun p => db (callOf p)) = false := by
        simpa using hall
      rw [tick_counts_failed db es hn hall2]
      simp only [readCount]
      by_cases hk : o ∈ keys es
      · obtain ⟨c, hc⟩ := (mem_keys_iff es o).mp hk
        rw [mapGet_settle db es o c hn hc, mapGet_of_mem es o c hn hc]
        by_cases hd : db (mkCall o c) = true
        · right
          simp [hd]
        · left
          simp [hd]
      · right
        apply mapGet_of_not_mem
        rw [keys_map_settle]
        exact hk

theorem handler_WF (s : Counts) (body : String) (hw : WF s) : WF (handler s body).1 := by
  cases s with
  | none =>
    show (keys (mapSet [] body _)).Nodup
    exact nodup_keys_mapSet _ _ _ (by simp [keys])
  | some es =>
    show (keys (mapSet es body _)).Nodup
    exact nodup_keys_mapSet _ _ _ hw

theorem handler_read_same (s : Counts) (body : String) :
    readCount (handler s body).1 body = wrapInt (readCount s body + 1) := by
  cases s with
  | none => simp [handler, readCount, mapGet_mapSet_same, mapGet]
  | some es => simp [handler, readCount, mapGet_mapSet_same]

theorem handler_read_other (s : Counts) (body o : String) (h : o ≠ body) :
    readCount (handler s body).1 o = readCount s o := by
  cases s with
  | none =>
    show mapGet (mapSet [] body _) o = 0
    rw [mapGet_mapSet_other _ _ _ _ h]
    rfl
  | some es =>
    show mapGet (mapSet es body _) o = mapGet es o
    exact mapGet_mapSet_other _ _ _ _ h

theorem handler_hasKey (s : Counts) (body o : String) :
    hasKey (handler s body).1 o ↔ o = body ∨ hasKey s o := by
  cases s with
  | none =>
    show o ∈ keys (mapSet [] body _) ↔ o = body ∨ False
    rw [mem_keys_mapSet]
    simp [keys]
  | some es =>
    show o ∈ keys (mapSet es body _) ↔ o = body ∨ o ∈ keys es
    exact mem_keys_mapSet _ _ _ _

/-! ## Runs -/

theorem exec_wrap (o : String) (tr : List Step) :
    ∀ (s : Counts) (x : Int), WF s → readCount s o = wrapInt x →
      readCount (exec s tr) o = wrapInt (x + (votes o tr : Int) - applied o s tr) := by
  induction tr with
  | nil =>
    intro s x _ hx
    simpa [exec, votes, applied] using hx
  | cons st tr ih =>
    intro s x hw hx
    cases st with
    | vote v =>
      by_cases hv : v = o
      · subst hv
        have hr : readCount (handler s v).1 v = wrapInt (x + 1) := by
          rw [handler_read_same, hx, wrapInt_succ]
        have h := ih (handler s v).1 (x + 1) (handler_WF s v hw) hr
        have e : x + 1 + (votes v tr : Int) - applied v (handler s v).1 tr
            = x + ((1 + votes v tr : Nat) : Int) - applied v (handler s v).1 tr := by
          push_cast
          omega
        simp only [exec, votes, applied, if_true]
        rw [h, e]
      · have hr : readCount (handler s v).1 o = wrapInt x := by
          rw [handler_read_other s v o (fun e => hv e.symm), hx]
        have h := ih (handler s v).1 x (handler_WF s v hw) hr
        simp only [exec, votes, applied, hv, if_false]
        rw [h]
        simp
    | tick db =>
      have hbal := tick_balance db s o hw
      have hrd := tick_read db s o hw
      have hr : readCount (tick db s).counts o
          = wrapInt (x - appliedIn o db (tick db s).calls) := by
        rcases hrd with e | e
        · have ha : appliedIn o db (tick db s).calls = 0 := by omega
          rw [ha, e, hx]
          simp
        · have ha : appliedIn o db (tick db s).calls = wrapInt x := by omega
          rw [ha, e, wrapInt_sub_self]
      have h := ih (tick db s).counts _ (tick_WF db s hw) hr
      have e : x - appliedIn o db (tick db s).calls + (votes o tr : Int)
            - applied o (tick db s).counts tr
          = x + (votes o tr : Int)
            - (appliedIn o db (tick db s).calls + applied o (tick db s).counts tr) := by
        omega
      simp only [exec, votes, applied]
      rw [h, e]

theorem votes_replicate (o : String) (n : Nat) :
    votes o (List.replicate n (Step.vote o)) = n := by
  induction n with
  | zero => rfl
  | succ n ih =>
    rw [List.replicate_succ]
    simp only [votes, if_true, ih]
    omega

theorem applied_replicate (o v : String) (n : Nat) :
    ∀ s : Counts, applied o s (List.replicate n (Step.vote v)) = 0 := by
  induction n with
  | zero =>
    intro s
    rfl
  | succ n ih =>
    intro s
    rw [List.replicate_succ]
    simp only [applied]
    exact ih _

theorem exec_replicate_read (o : String) (n : Nat) :
    ∀ (s : Counts) (x : Int), readCount s o = wrapInt x →
      readCount (exec s (List.replicate n (Step.vote o))) o = wrapInt (x + n) := by
  induction n with
  | zero =>
    intro s x h
    simpa [exec] using h
  | succ n ih =>
    intro s x h
    rw [List.replicate_succ]
    simp only [exec]
    have h1 : readCount (handler s o).1 o = wrapInt (x + 1) := by
      rw [handler_read_same, h, wrapInt_succ]
    have h2 := ih (handler s o).1 (x + 1) h1
    rw [h2]
    congr 1
    push_cast
    omega

/-- Entries held after the payloads of `vs` were delivered: keys are held
once, each count is the number of occurrences and the keys are the payloads
seen, as long as no count leaves the range of `int`. -/
theorem deliver_spec (vs : List String) :
    ∀ s : Counts, WF s → (∀ o, 0 ≤ readCount s o) →
      (∀ o, readCount s o + (vs.count o : Int) ≤ intMax) →
      WF (deliver s vs) ∧
      (∀ o, readCount (deliver s vs) o = readCount s o + (vs.count o : Int)) ∧
      (∀ o, hasKey (deliver s vs) o ↔ hasKey s o ∨ o ∈ vs) := by
  induction vs with
  | nil =>
    intro s hw _ _
    simp [deliver, hw]
  | cons v vs ih =>
    intro s hw h0 hb
    have hcv : ((v :: vs).count v : Int) = (vs.count v : Int) + 1 := by
      simp [List.count_cons]
    have hco : ∀ o, o ≠ v → ((v :: vs).count o : Int) = (vs.count o : Int) := by
      intro o ho
      have : ¬ v = o := fun e => ho e.symm
      simp [List.count_cons, this]
    have hrv : readCount (handler s v).1 v = readCount s v + 1 := by
      rw [handler_read_same]
      apply wrapInt_of_range
      · have := h0 v
        unfold intMin
        omega
      · have h1 := hb v
        rw [hcv] at h1
        have : (0 : Int) ≤ (vs.count v : Int) := Int.ofNat_nonneg _
        omega
    have hro : ∀ o, o ≠ v → readCount (handler s v).1 o = readCount s o :=
      fun o ho => handler_read_other s v o ho
    have h0n : ∀ o, 0 ≤ readCount (handler s v).1 o := by
      intro o
      by_cases ho : o = v
      · subst ho
        rw [hrv]
        have := h0 o
        omega
      · rw [hro o ho]
        exact h0 o
    have hbn : ∀ o, readCount (handler s v).1 o + (vs.count o : Int) ≤ intMax := by
      intro o
      by_cases ho : o = v
      · subst ho
        rw [hrv]
        have h1 := hb o
        rw [hcv] at h1
        omega
      · rw [hro o ho]
        have h1 := hb o
        rw [hco o ho] at h1
        exact h1
    obtain ⟨i1, i2, i3⟩ := ih (handler s v).1 (handler_WF s v hw) h0n hbn
    refine ⟨i1, ?_, ?_⟩
    · intro o
      show readCount (deliver (handler s v).1 vs) o = _
      rw [i2 o]
      by_cases ho : o = v
      · subst ho
        rw [hrv, hcv]
        omega
      · rw [hro o ho, hco o ho]
    · intro o
      show hasKey (deliver (handler s v).1 vs) o ↔ _
      rw [i3 o, handler_hasKey]
      simp only [List.mem_cons]
      tauto

theorem deliver_replicate (o : String) (n : Nat) :
    ∀ x : Int, deliver (some [(o, wrapInt x)]) (List.replicate n o)
      = some [(o, wrapInt (x + n))] := by
  induction n with
  | zero =>
    intro x
    simp [deliver]
  | succ n ih =>
    intro x
    rw [List.replicate_succ]
    have h1 : (handler (some [(o, wrapInt x)]) o).1 = some [(o, wrapInt (x + 1))] := by
      simp [handler, mapSet, mapGet, wrapInt_succ]
    simp only [deliver]
    have e : x + 1 + (n : Int) = x + ((n + 1 : Nat) : Int) := by
      push_cast
      omega
    rw [h1, ih (x + 1), e]

theorem deliver_none_replicate (o : String) (n : Nat) (hn : 0 < n) :
    deliver none (List.replicate n o) = some [(o, wrapInt n)] := by
  obtain ⟨m, rfl⟩ : ∃ m, n = m + 1 := ⟨n - 1, by omega⟩
  rw [List.replicate_succ]
  have h1 : (handler none o).1 = some [(o, wrapInt (0 + 1))] := by
    simp [handler, mapSet, mapGet]
  simp only [deliver]
  have e : (0 : Int) + 1 + (m : Int) = ((m + 1 : Nat) : Int) := by
    push_cast
    omega
  rw [h1, deliver_replicate o m (0 + 1), e]

theorem votes_append (o : String) (t1 t2 : List Step) :
    votes o (t1 ++ t2) = votes o t1 + votes o t2 := by
  induction t1 with
  | nil => simp [votes]
  | cons st t1 ih =>
    cases st with
    | vote v =>
      show (if v = o then 1 else 0) + votes o (t1 ++ t2)
        = (if v = o then 1 else 0) + votes o t1 + votes o t2
      rw [ih]
      omega
    | tick db =>
      show votes o (t1 ++ t2) = votes o t1 + votes o t2
      exact ih

theorem exec_append (t1 t2 : List Step) :
    ∀ s : Counts, exec s (t1 ++ t2) = exec (exec s t1) t2 := by
  induction t1 with
  | nil =>
    intro s
    rfl
  | cons st t1 ih =>
    intro s
    cases st with
    | vote v =>
      show exec (handler s v).1 (t1 ++ t2) = exec (exec (handler s v).1 t1) t2
      exact ih _
    | tick db =>
      show exec (tick db s).counts (t1 ++ t2) = exec (exec (tick db s).counts t1) t2
      exact ih _

theorem applied_append (o : String) (t1 t2 : List Step) :
    ∀ s : Counts, applied o s (t1 ++ t2) = applied o s t1 + applied o (exec s t1) t2 := by
  induction t1 with
  | nil =>
    intro s
    simp [applied, exec]
  | cons st t1 ih =>
    intro s
    cases st with
    | vote v =>
      show applied o (handler s v).1 (t1 ++ t2)
        = applied o (handler s v).1 t1 + applied o (exec (handler s v).1 t1) t2
      exact ih _
    | tick db =>
      show appliedIn o db (tick db s).calls + applied o (tick db s).counts (t1 ++ t2)
        = appliedIn o db (tick db s).calls + applied o (tick db s).counts t1
          + applied o (exec (tick db s).counts t1) t2
      rw [ih]
      omega

theorem exec_replicate (o : String) (n : Nat) :
    ∀ s : Counts, exec s (List.replicate n (Step.vote o)) = deliver s (List.replicate n o) := by
  induction n with
  | zero =>
    intro s
    rfl
  | succ n ih =>
    intro s
    rw [List.replicate_succ, List.replicate_succ]
    simp only [exec, deliver, ih]

/-! ## Order of iteration -/

/-- The order in which `range` visits the entries does not matter: two
maps with the same entries in another order give the same calls up to
order, and the same map up to order. -/
theorem tick_perm (db : UpdateCall → Bool) (es es2 : Entries) (hp : es.Perm es2)
    (hn : (keys es).Nodup) :
    (tick db (some es)).calls.Perm (tick db (some es2)).calls ∧
      sameMap (tick db (some es)).counts (tick db (some es2)).counts := by
  have hn2 : (keys es2).Nodup := (hp.map Prod.fst).nodup_iff.mp hn
  refine ⟨?_, ?_⟩
  · rw [tick_calls, tick_calls]
    exact hp.map callOf
  · have hall : es.all (fun p => db (callOf p)) = es2.all (fun p => db (callOf p)) := by
      rw [Bool.eq_iff_iff]
      simp only [List.all_eq_true]
      constructor
      · intro h x hx
        exact h x (hp.mem_iff.mpr hx)
      · intro h x hx
        exact h x (hp.mem_iff.mp hx)
    by_cases ha : es.all (fun p => db (callOf p)) = true
    · by_cases hne : es = []
      · subst hne
        have e2 : es2 = [] := hp.symm.eq_nil
        subst e2
        simp [tick, lenCounts, sameMap]
      · have hne2 : es2 ≠ [] := by
          intro e
          subst e
          exact hne hp.eq_nil
        rw [tick_counts_ok db es hne ha, tick_counts_ok db es2 hne2 (hall ▸ ha)]
        trivial
    · have ha1 : es.all (fun p => db (callOf p)) = false := by
        simpa using ha
      have ha2 : es2.all (fun p => db (callOf p)) = false := hall ▸ ha1
      rw [tick_counts_failed db es hn ha1, tick_counts_failed db es2 hn2 ha2]
      exact hp.map (settle db)

/-! ## C1: conservation -/

/-- C1, as amended: in every state reached from the nil map by votes and
ticks, whatever the outcomes of the update calls, and for every option, the
pending count is the 64-bit wrap-around of the number of votes for the
option minus the sum of the counts passed to its successful update calls;
the two are equal exactly when that difference lies in the range of
`int`. -/
theorem conservation_up_to_wrap (tr : List Step) (option : String) :
    readCount (exec none tr) option
        = wrapInt ((votes option tr : Int) - applied option none tr) ∧
      ((votes option tr : Int) - applied option none tr = readCount (exec none tr) option ↔
        intMin ≤ (votes option tr : Int) - applied option none tr ∧
          (votes option tr : Int) - applied option none tr ≤ intMax) := by
  have hb : readCount (exec none tr) option
      = wrapInt ((votes option tr : Int) - applied option none tr) := by
    have h0 : readCount none option = wrapInt 0 := by
      show (0 : Int) = wrapInt 0
      decide
    have h := exec_wrap option tr none 0 trivial h0
    rw [h]
    simp
  refine ⟨hb, ?_⟩
  rw [hb, ← wrapInt_eq_self_iff]
  exact eq_comm

/-- Witness of C1: two votes for "yes", one for "no", a tick in which only
the update for "yes" succeeds, then another vote for "yes": three votes, two
applied, one pending. -/
theorem conservation_up_to_wrap_witness :
    ((votes "yes" [Step.vote "yes", Step.vote "no", Step.vote "yes",
        Step.tick (fun c => decide (c.sel = { optionsIn := ["yes"] })), Step.vote "yes"] : Nat) : Int)
        - applied "yes" none [Step.vote "yes", Step.vote "no", Step.vote "yes",
            Step.tick (fun c => decide (c.sel = { optionsIn := ["yes"] })), Step.vote "yes"]
        = readCount (exec none [Step.vote "yes", Step.vote "no", Step.vote "yes",
            Step.tick (fun c => decide (c.sel = { optionsIn := ["yes"] })), Step.vote "yes"]) "yes" :=
  (conservation_up_to_wrap _ _).2.mpr (by decide)

theorem applied_after_flush :
    applied "a" none (List.replicate 9223372036854775807 (Step.vote "a")
        ++ [Step.tick (fun _ => true), Step.vote "a"]) = 9223372036854775807 := by
  rw [applied_append, applied_replicate, exec_replicate,
    deliver_none_replicate "a" 9223372036854775807 (by decide)]
  have e : wrapInt ((9223372036854775807 : Nat) : Int) = 9223372036854775807 := by decide
  rw [e]
  decide

/-- The equation of C1 beyond 2^63 - 1 votes: 2^63 - 1 votes for "a", a
tick whose update succeeds, one more vote.  The votes number 2^63, the
applied counts sum to 2^63 - 1, and the pending count is their difference
1. -/
theorem conservation_after_flush :
    ((votes "a" (List.replicate 9223372036854775807 (Step.vote "a")
          ++ [Step.tick (fun _ => true), Step.vote "a"]) : Nat) : Int)
        - applied "a" none (List.replicate 9223372036854775807 (Step.vote "a")
          ++ [Step.tick (fun _ => true), Step.vote "a"])
        = readCount (exec none (List.replicate 9223372036854775807 (Step.vote "a")
          ++ [Step.tick (fun _ => true), Step.vote "a"])) "a" ∧
      votes "a" (List.replicate 9223372036854775807 (Step.vote "a")
          ++ [Step.tick (fun _ => true), Step.vote "a"]) = 9223372036854775808 := by
  have hv : votes "a" (List.replicate 9223372036854775807 (Step.vote "a")
      ++ [Step.tick (fun _ => true), Step.vote "a"]) = 9223372036854775808 := by
    rw [votes_append, votes_replicate]
    rfl
  have hr : readCount (exec none (List.replicate 9223372036854775807 (Step.vote "a")
      ++ [Step.tick (fun _ => true), Step.vote "a"])) "a" = 1 := by
    rw [exec_append, exec_replicate, deliver_none_replicate "a" 9223372036854775807 (by decide)]
    have e : wrapInt ((9223372036854775807 : Nat) : Int) = 9223372036854775807 := by decide
    rw [e]
    decide
  refine ⟨?_, hv⟩
  rw [hv, applied_after_flush, hr]
  decide

/-- Counterexample to C1 as stated: after 2^63 votes for "a" and no tick,
the votes number 2^63 and nothing was applied, but the pending count has
wrapped around to -2^63. -/
theorem conservation_fails_at_overflow :
    ((votes "a" (List.replicate 9223372036854775808 (Step.vote "a")) : Nat) : Int)
        - applied "a" none (List.replicate 9223372036854775808 (Step.vote "a"))
        = 9223372036854775808 ∧
      readCount (exec none (List.replicate 9223372036854775808 (Step.vote "a"))) "a"
        = -9223372036854775808 := by
  refine ⟨?_, ?_⟩
  · rw [votes_replicate, applied_replicate]
    rfl
  · have h := exec_replicate_read "a" 9223372036854775808 none 0 (by decide)
    rw [h]
    decide

/-! ## C2: exact tallies -/

theorem count_le_intMax (vs : List String) (h : (vs.length : Int) ≤ intMax) :
    ∀ o, (vs.count o : Int) ≤ intMax := by
  intro o
  have h1 : vs.count o ≤ vs.length := List.count_le_length o vs
  have h2 : (vs.count o : Int) ≤ (vs.length : Int) := Int.ofNat_le.mpr h1
  exact le_trans h2 h

/-- C2, as amended: after any finite sequence of votes delivered from the
nil map in which no option occurs more than `intMax` times, the tick makes,
up to order, exactly one call per distinct option of the sequence: the call
that selects the documents whose `options` contain the option and
increments `results.<option>` by the number of its occurrences. -/
theorem exact_tallies_below_overflow (db : UpdateCall → Bool) (vs : List String)
    (h : ∀ o, (vs.count o : Int) ≤ intMax) :
    (tick db (deliver none vs)).calls.Perm
      (vs.dedup.map (fun o => mkCall o (vs.count o))) := by
  obtain ⟨hw, hr, hk⟩ := deliver_spec vs none trivial (fun _ => le_refl _)
    (fun o => by simpa [readCount] using h o)
  rw [tick_calls]
  have hn : (keys (entriesOf (deliver none vs))).Nodup := by
    cases hd : deliver none vs with
    | none => simp [entriesOf, keys]
    | some es =>
      rw [hd] at hw
      exact hw
  have hval : ∀ p ∈ entriesOf (deliver none vs), callOf p = mkCall p.1 (vs.count p.1) := by
    intro p hp
    obtain ⟨o, c⟩ := p
    cases hd : deliver none vs with
    | none =>
      rw [hd] at hp
      simp [entriesOf] at hp
    | some es =>
      rw [hd] at hp hn
      have h1 := hr o
      rw [hd] at h1
      have h2 : mapGet es o = c := mapGet_of_mem es o c hn hp
      have h3 : c = (vs.count o : Int) := by
        have h4 : mapGet es o = 0 + (vs.count o : Int) := h1
        rw [h2] at h4
        omega
      simp [callOf, h3]
  have hmap : (entriesOf (deliver none vs)).map callOf
      = (keys (entriesOf (deliver none vs))).map (fun o => mkCall o (vs.count o)) := by
    unfold keys
    rw [List.map_map]
    exact List.map_congr_left hval
  rw [hmap]
  apply List.Perm.map
  rw [List.perm_ext_iff_of_nodup hn (List.nodup_dedup vs)]
  intro o
  rw [List.mem_dedup]
  have h5 := hk o
  cases hd : deliver none vs with
  | none =>
    rw [hd] at h5
    simpa [entriesOf, keys, hasKey] using h5
  | some es =>
    rw [hd] at h5
    simpa [entriesOf, hasKey] using h5

/-- Witness of C2: "yes" four times and "no" twice. -/
theorem exact_tallies_below_overflow_witness :
    (∀ o, ((["yes", "no", "yes", "yes", "no", "yes"].count o : Nat) : Int) ≤ intMax) ∧
      (tick (fun _ => true) (deliver none ["yes", "no", "yes", "yes", "no", "yes"])).calls.Perm
        [mkCall "no" 2, mkCall "yes" 4] :=
  ⟨count_le_intMax _ (by decide),
    exact_tallies_below_overflow (fun _ => true) ["yes", "no", "yes", "yes", "no", "yes"]
      (count_le_intMax _ (by decide))⟩

/-- Counterexample to C2 as stated: after 2^63 votes for "a" the tick makes
one call for "a", and it increments by -2^63, not by the 2^63 occurrences
of "a". -/
theorem exact_tallies_fail_at_overflow :
    (tick (fun _ => true) (deliver none (List.replicate 9223372036854775808 "a"))).calls
        = [mkCall "a" (-9223372036854775808)] ∧
      (List.replicate 9223372036854775808 "a").count "a" = 9223372036854775808 := by
  refine ⟨?_, ?_⟩
  · rw [deliver_none_replicate "a" 9223372036854775808 (by decide), tick_calls]
    have e : wrapInt ((9223372036854775808 : Nat) : Int) = -9223372036854775808 := by decide
    rw [e]
    rfl
  · exact List.count_replicate_self _ _

/-! ## Ticks with failed updates -/

theorem all_false_of_failed (db : UpdateCall → Bool) (es : Entries) (o : String) (c : Int)
    (hm : (o, c) ∈ es) (hf : db (mkCall o c) = false) :
    es.all (fun p => db (callOf p)) = false := by
  rw [Bool.eq_false_iff]
  intro h
  have h1 := List.all_eq_true.mp h (o, c) hm
  have h2 : db (mkCall o c) = true := h1
  rw [hf] at h2
  exact Bool.false_ne_true h2

theorem all_true_of_forall (db : UpdateCall → Bool) (es : Entries)
    (h : ∀ p ∈ es, db (callOf p) = true) : es.all (fun p => db (callOf p)) = true :=
  List.all_eq_true.mpr h

theorem failed_keeps_count (db : UpdateCall → Bool) (es : Entries) (o : String) (c : Int)
    (hn : (keys es).Nodup) (hm : (o, c) ∈ es) (hf : db (mkCall o c) = false) :
    (tick db (some es)).counts = some (es.map (settle db)) ∧
      readCount (tick db (some es)).counts o = c ∧ hasKey (tick db (some es)).counts o := by
  have hall := all_false_of_failed db es o c hm hf
  have hc := tick_counts_failed db es hn hall
  refine ⟨hc, ?_, ?_⟩
  · rw [hc]
    show mapGet (es.map (settle db)) o = c
    rw [mapGet_settle db es o c hn hm, hf]
    rfl
  · rw [hc]
    show o ∈ keys (es.map (settle db))
    rw [keys_map_settle]
    exact (mem_keys_iff es o).mpr ⟨c, hm⟩

/-- C3, as amended: a failed delta is kept.  After a tick on a map in which
the update for an option fails, the map still holds that option with its
full pending count, and the next tick, with no vote in between, issues the
update for that option with that count again. -/
theorem failed_delta_retained (db db2 : UpdateCall → Bool) (es : Entries) (option : String)
    (count : Int) (hn : (keys es).Nodup) (hm : (option, count) ∈ es)
    (hf : db (mkCall option count) = false) :
    readCount (tick db (some es)).counts option = count ∧
      hasKey (tick db (some es)).counts option ∧
      mkCall option count ∈ (tick db2 (tick db (some es)).counts).calls := by
  obtain ⟨hc, hr, hk⟩ := failed_keeps_count db es option count hn hm hf
  refine ⟨hr, hk, ?_⟩
  rw [tick_calls, hc]
  show mkCall option count ∈ (es.map (settle db)).map callOf
  apply List.mem_map.mpr
  refine ⟨settle db (option, count), List.mem_map.mpr ⟨(option, count), hm, rfl⟩, ?_⟩
  simp [settle, callOf, hf]

/-- Witness of C3: pending A: 3 and B: 5, the update for A succeeds and the
one for B fails. -/
theorem failed_delta_retained_witness :
    (keys [("A", 3), ("B", 5)]).Nodup ∧ (("B", 5) : String × Int) ∈ [("A", 3), ("B", 5)] ∧
      (fun c : UpdateCall => decide (c.sel = { optionsIn := ["A"] })) (mkCall "B" 5) = false ∧
      (readCount (tick (fun c => decide (c.sel = { optionsIn := ["A"] }))
          (some [("A", 3), ("B", 5)])).counts "B" = 5 ∧
        hasKey (tick (fun c => decide (c.sel = { optionsIn := ["A"] }))
          (some [("A", 3), ("B", 5)])).counts "B" ∧
        mkCall "B" 5 ∈ (tick (fun _ => true) (tick (fun c => decide (c.sel = { optionsIn := ["A"] }))
          (some [("A", 3), ("B", 5)])).counts).calls) :=
  ⟨by decide, by decide, by decide,
    failed_delta_retained (fun c => decide (c.sel = { optionsIn := ["A"] })) (fun _ => true)
      [("A", 3), ("B", 5)] "B" 5 (by decide) (by decide) (by decide)⟩

/-- Counterexample to C3 as stated: with pending A: 3 and B: 5, the update
for A succeeding and the one for B failing, the map after the tick is
A: 0, B: 5, and the following tick issues the update of B by 5 (and one of
A by 0). -/
theorem failed_delta_not_dropped :
    (tick (fun c => decide (c.sel = { optionsIn := ["A"] })) (some [("A", 3), ("B", 5)])).counts
        = some [("A", 0), ("B", 5)] ∧
      (tick (fun _ => true) (tick (fun c => decide (c.sel = { optionsIn := ["A"] }))
        (some [("A", 3), ("B", 5)])).counts).calls = [mkCall "A" 0, mkCall "B" 5] := by
  decide

/-- C4: a tick on a non-empty map makes one call per entry of the map,
whatever the outcomes of the calls, no two of them for the same option, and
an option whose update failed keeps its entry and its count. -/
theorem failure_does_not_abort (db : UpdateCall → Bool) (es : Entries) (hne : es ≠ [])
    (hn : (keys es).Nodup) :
    (tick db (some es)).skipped = false ∧
      (tick db (some es)).calls = es.map (fun p => mkCall p.1 p.2) ∧
      ((tick db (some es)).calls.map (fun c => c.sel)).Nodup ∧
      ∀ option count, (option, count) ∈ es → db (mkCall option count) = false →
        readCount (tick db (some es)).counts option = count ∧
          hasKey (tick db (some es)).counts option := by
  have hl : ¬ es.length = 0 := fun h => hne (List.length_eq_zero.mp h)
  refine ⟨?_, ?_, ?_, ?_⟩
  · rw [tick_skipped]
    simp [lenCounts, hl]
  · rw [tick_calls]
    rfl
  · rw [tick_calls]
    have e : ((entriesOf (some es)).map callOf).map (fun c => c.sel)
        = (keys es).map (fun o => ({ optionsIn := [o] } : Sel)) := by
      simp [entriesOf, keys, callOf, mkCall, List.map_map, Function.comp_def]
    rw [e]
    apply List.Nodup.map _ hn
    intro a b hab
    simpa using hab
  · intro o c hm hf
    exact (failed_keeps_count db es o c hn hm hf).2

/-- Witness of C4: three options, the update of the first one fails. -/
theorem failure_does_not_abort_witness :
    ([("A", 3), ("B", 5), ("C", 1)] : Entries) ≠ [] ∧ (keys [("A", 3), ("B", 5), ("C", 1)]).Nodup ∧
      (tick (fun c => decide (c.sel ≠ { optionsIn := ["A"] }))
        (some [("A", 3), ("B", 5), ("C", 1)])).calls
        = [("A", 3), ("B", 5), ("C", 1)].map (fun p => mkCall p.1 p.2) :=
  ⟨by decide, by decide,
    (failure_does_not_abort (fun c => decide (c.sel ≠ { optionsIn := ["A"] }))
      [("A", 3), ("B", 5), ("C", 1)] (by decide) (by decide)).2.1⟩

/-! ## Ticks without failed updates -/

theorem tick_none (db : UpdateCall → Bool) :
    tick db none = { counts := none, calls := [], skipped := true, reset := updateDuration } := by
  simp [tick, lenCounts]

theorem success_empties (db : UpdateCall → Bool) (s : Counts)
    (h : ∀ p ∈ entriesOf s, db (callOf p) = true) : lenCounts (tick db s).counts = 0 := by
  cases s with
  | none => simp [tick, lenCounts]
  | some es =>
    by_cases hne : es = []
    · subst hne
      simp [tick, lenCounts]
    · rw [tick_counts_ok db es hne (all_true_of_forall db es h)]
      rfl

/-- C5, as amended: when every update call of a tick succeeds (also when
the tick finds nothing to update), a second tick with no vote in between
finds no pending pair: it takes the skip branch and makes no call. -/
theorem double_drain_empty_after_success (db db2 : UpdateCall → Bool) (s : Counts)
    (h : ∀ p ∈ entriesOf s, db (callOf p) = true) :
    entriesOf (tick db s).counts = [] ∧
      (tick db2 (tick db s).counts).calls = [] ∧
      (tick db2 (tick db s).counts).skipped = true := by
  have hl := success_empties db s h
  have he : entriesOf (tick db s).counts = [] := by
    cases hc : (tick db s).counts with
    | none => rfl
    | some es =>
      rw [hc] at hl
      exact List.length_eq_zero.mp hl
  refine ⟨he, ?_, ?_⟩
  · rw [tick_calls, he]
    rfl
  · rw [tick_skipped, hl]
    rfl

/-- Witness of C5: "yes": 4 and "no": 2, every update succeeds. -/
theorem double_drain_empty_after_success_witness :
    (∀ p ∈ entriesOf (some [("yes", 4), ("no", 2)]), (fun _ : UpdateCall => true) (callOf p) = true) ∧
      (tick (fun _ => true) (tick (fun _ => true) (some [("yes", 4), ("no", 2)])).counts).calls = [] :=
  ⟨fun _ _ => rfl,
    (double_drain_empty_after_success (fun _ => true) (fun _ => true)
      (some [("yes", 4), ("no", 2)]) (fun _ _ => rfl)).2.1⟩

/-- Counterexample to C5 as stated: with "a": 1 pending and the update of
the first tick failing, the second tick is not skipped and makes the call
for "a" again. -/
theorem double_drain_not_empty :
    (tick (fun _ => true) (tick (fun _ => false) (some [("a", 1)])).counts).calls = [mkCall "a" 1] ∧
      (tick (fun _ => true) (tick (fun _ => false) (some [("a", 1)])).counts).skipped = false := by
  decide

/-- C6: when every update call of a tick on a non-empty map succeeds, the
map is nil after the tick, its length is 0, and a following tick with no
vote in between takes the skip branch and makes no call. -/
theorem full_success_resets (db db2 : UpdateCall → Bool) (es : Entries) (hne : es ≠ [])
    (hall : ∀ option count, (option, count) ∈ es → db (mkCall option count) = true) :
    (tick db (some es)).counts = none ∧
      lenCounts (tick db (some es)).counts = 0 ∧
      (tick db2 (tick db (some es)).counts).skipped = true ∧
      (tick db2 (tick db (some es)).counts).calls = [] := by
  have ha : es.all (fun p => db (callOf p)) = true :=
    all_true_of_forall db es (fun p hp => hall p.1 p.2 hp)
  have hc := tick_counts_ok db es hne ha
  rw [hc, tick_none]
  exact ⟨rfl, rfl, rfl, rfl⟩

/-- Witness of C6: "yes": 4 and "no": 2, every update succeeds. -/
theorem full_success_resets_witness :
    ([("yes", 4), ("no", 2)] : Entries) ≠ [] ∧
      (∀ option count, (option, count) ∈ ([("yes", 4), ("no", 2)] : Entries) →
        (fun _ : UpdateCall => true) (mkCall option count) = true) ∧
      (tick (fun _ => true) (some [("yes", 4), ("no", 2)])).counts = none :=
  ⟨by decide, fun _ _ _ => rfl,
    (full_success_resets (fun _ => true) (fun _ => false) [("yes", 4), ("no", 2)] (by decide)
      (fun _ _ _ => rfl)).1⟩

/-- C7: a tick on a map of length 0 (nil or empty) makes no call, leaves
the map as it is and re-arms the timer for `updateDuration`; and every
tick, on any map and with any outcomes, ends by re-arming the timer for
`updateDuration`, whatever the state of the timer was. -/
theorem empty_tick_noop (db : UpdateCall → Bool) (s : Counts) (h : lenCounts s = 0) :
    ((tick db s).calls = [] ∧ (tick db s).counts = s ∧ (tick db s).skipped = true ∧
        (tick db s).reset = updateDuration) ∧
      ∀ (db2 : UpdateCall → Bool) (s2 : Counts) (t : Timer),
        t.Reset (tick db2 s2).reset = Timer.armed updateDuration := by
  refine ⟨⟨?_, tick_counts_skip db s h, ?_, ?_⟩, ?_⟩
  · simp [tick, h]
  · simp [tick, h]
  · simp [tick, h]
  · intro db2 s2 t
    have e : (tick db2 s2).reset = updateDuration := by
      unfold tick
      split
      · rfl
      · split <;> rfl
    rw [e]
    rfl

/-- Witness of C7: the nil map. -/
theorem empty_tick_noop_witness :
    lenCounts none = 0 ∧ (tick (fun _ => false) none).calls = [] ∧
      (tick (fun _ => false) none).counts = none :=
  ⟨rfl, (empty_tick_noop (fun _ => false) none rfl).1.1,
    (empty_tick_noop (fun _ => false) none rfl).1.2.1⟩

/-! ## C8: the handler -/

theorem readCount_of_not_hasKey (s : Counts) (o : String) (h : ¬ hasKey s o) :
    readCount s o = 0 := by
  cases s with
  | none => rfl
  | some es => exact mapGet_of_not_mem es o h

/-- C8, as amended: for every value of `counts`, the nil map included, and
every payload, the handler sets the pending count of `string(payload)` to
the 64-bit wrap-around of the old count plus 1, which is the old count
plus 1 exactly when that sum is in the range of `int` (so for every `int`
but the largest); in every state it leaves an entry for the option, makes
the count 1 when the option had no entry, leaves the entry and the count of
every other option as they were, and returns nil. -/
theorem handler_contract (s : Counts) (body : String) :
    readCount (handler s body).1 body = wrapInt (readCount s body + 1) ∧
      (readCount (handler s body).1 body = readCount s body + 1 ↔
        intMin ≤ readCount s body + 1 ∧ readCount s body + 1 ≤ intMax) ∧
      hasKey (handler s body).1 body ∧
      (¬ hasKey s body → readCount (handler s body).1 body = 1) ∧
      (∀ o, o ≠ body → readCount (handler s body).1 o = readCount s o ∧
        (hasKey (handler s body).1 o ↔ hasKey s o)) ∧
      (handler s body).2 = none := by
  have hr := handler_read_same s body
  refine ⟨hr, ?_, ?_, ?_, ?_, rfl⟩
  · rw [hr]
    exact wrapInt_eq_self_iff _
  · rw [handler_hasKey]
    left
    rfl
  · intro hk
    rw [hr, readCount_of_not_hasKey s body hk]
    decide
  · intro o ho
    refine ⟨handler_read_other s body o ho, ?_⟩
    rw [handler_hasKey]
    constructor
    · intro h
      rcases h with h | h
      · exact absurd h ho
      · exact h
    · intro h
      exact Or.inr h

/-- Witness of C8: a vote for "a" on the map a: 2, b: 7 raises the count of
"a" to 3, leaves "b" at 7 and returns nil. -/
theorem handler_contract_witness :
    readCount (handler (some [("a", 2), ("b", 7)]) "a").1 "a"
        = readCount (some [("a", 2), ("b", 7)]) "a" + 1 ∧
      readCount (handler (some [("a", 2), ("b", 7)]) "a").1 "b"
        = readCount (some [("a", 2), ("b", 7)]) "b" ∧
      (handler (some [("a", 2), ("b", 7)]) "a").2 = none :=
  ⟨(handler_contract (some [("a", 2), ("b", 7)]) "a").2.1.mpr (by decide),
    ((handler_contract (some [("a", 2), ("b", 7)]) "a").2.2.2.2.1 "b" (by decide)).1,
    (handler_contract (some [("a", 2), ("b", 7)]) "a").2.2.2.2.2⟩

/-- The handler on the map that holds the largest `int` for "a": a vote for
"a" still leaves "b" at 7 and returns nil. -/
theorem handler_frame_at_max :
    readCount (handler (some [("a", 9223372036854775807), ("b", 7)]) "a").1 "b" = 7 ∧
      (handler (some [("a", 9223372036854775807), ("b", 7)]) "a").2 = none := by
  decide

/-- Counterexample to C8 as stated: on the map holding the largest `int`
for "a", a vote for "a" takes the count to the smallest `int`. -/
theorem handler_wraps_at_max :
    readCount (some [("a", 9223372036854775807)]) "a" = 9223372036854775807 ∧
      readCount (handler (some [("a", 9223372036854775807)]) "a").1 "a"
        = -9223372036854775808 := by
  decide

/-! ## C10: entries with count 0 -/

/-- C10: after a tick on a map in which at least one update fails, the map
has the keys it had, with count 0 for the options whose update succeeded
and the old count for those whose update failed; the next tick, with no
vote in between, makes a call with count 0 for each option whose update had
succeeded; and a state in which every pending count is 0 and on which a
tick still makes calls can be reached from the nil map. -/
theorem zero_entries_flushed_again (db db2 : UpdateCall → Bool) (es : Entries)
    (hn : (keys es).Nodup)
    (hfail : ∃ o c, (o, c) ∈ es ∧ db (mkCall o c) = false) :
    (∃ es2, (tick db (some es)).counts = some es2 ∧ keys es2 = keys es ∧
        ∀ o c, (o, c) ∈ es → mapGet es2 o = if db (mkCall o c) then 0 else c) ∧
      (∀ o c, (o, c) ∈ es → db (mkCall o c) = true →
        mkCall o 0 ∈ (tick db2 (tick db (some es)).counts).calls) ∧
      ∃ (tr : List Step) (db3 : UpdateCall → Bool),
        (∀ o, readCount (exec none tr) o = 0) ∧ (tick db3 (exec none tr)).calls ≠ [] := by
  obtain ⟨o1, c1, hm1, hf1⟩ := hfail
  have hc := (failed_keeps_count db es o1 c1 hn hm1 hf1).1
  refine ⟨⟨es.map (settle db), hc, keys_map_settle db es, ?_⟩, ?_, ?_⟩
  · intro o c hm
    exact mapGet_settle db es o c hn hm
  · intro o c hm hs
    rw [tick_calls, hc]
    show mkCall o 0 ∈ (es.map (settle db)).map callOf
    apply List.mem_map.mpr
    refine ⟨settle db (o, c), List.mem_map.mpr ⟨(o, c), hm, rfl⟩, ?_⟩
    simp [settle, callOf, hs]
  · refine ⟨[Step.vote "A", Step.vote "B",
      Step.tick (fun c => decide (c.sel = { optionsIn := ["A"] })),
      Step.tick (fun c => decide (c.sel = { optionsIn := ["B"] }))], fun _ => true, ?_, ?_⟩
    · have e : exec none [Step.vote "A", Step.vote "B",
          Step.tick (fun c => decide (c.sel = { optionsIn := ["A"] })),
          Step.tick (fun c => decide (c.sel = { optionsIn := ["B"] }))]
          = some [("A", 0), ("B", 0)] := by decide
      intro o
      rw [e]
      simp only [readCount, mapGet]
      split
      · rfl
      · split <;> rfl
    · decide

/-- Witness of C10: pending A: 3 and B: 5, the update for A succeeds and
the one for B fails. -/
theorem zero_entries_flushed_again_witness :
    (keys [("A", 3), ("B", 5)]).Nodup ∧
      (∃ o c, (o, c) ∈ ([("A", 3), ("B", 5)] : Entries) ∧
        (fun c : UpdateCall => decide (c.sel = { optionsIn := ["A"] })) (mkCall o c) = false) ∧
      (∀ o c, (o, c) ∈ ([("A", 3), ("B", 5)] : Entries) →
        (fun c : UpdateCall => decide (c.sel = { optionsIn := ["A"] })) (mkCall o c) = true →
        mkCall o 0 ∈ (tick (fun _ => true)
          (tick (fun c => decide (c.sel = { optionsIn := ["A"] }))
            (some [("A", 3), ("B", 5)])).counts).calls) :=
  ⟨by decide, ⟨"B", 5, by decide, by decide⟩,
    (zero_entries_flushed_again (fun c => decide (c.sel = { optionsIn := ["A"] })) (fun _ => true)
      [("A", 3), ("B", 5)] (by decide) ⟨"B", 5, by decide, by decide⟩).2.1⟩

/-! ## C9: shutdown -/

/-- C9, the run that breaks it: the timer fires, the signal is handled
while the callback runs (`updater.Stop()`, `q.Stop()`), the callback ends
with `updater.Reset(updateDuration)`, and the timer fires again: a second
flush cycle starts after the signal was handled and after the cycle in
flight completed, while `main` has not returned. -/
theorem cycle_starts_after_signal :
    Proc.run Proc.init [Event.fire, Event.signal, Event.complete, Event.fire]
      = some { updater := Timer.idle, ticking := true, cycles := 2, signalled := true,
               qStopping := true, stopChan := false, returned := false } := by
  decide

theorem step_keeps_returned_after_stopChan (s t : Proc) (e : Event)
    (hs : s.returned = true → s.stopChan = true) (h : s.step e = some t) :
    t.returned = true → t.stopChan = true := by
  cases e with
  | fire =>
    simp only [Proc.step] at h
    split at h
    · split at h
      · simp at h
      · simp only [Option.some.injEq] at h
        subst h
        exact hs
    · simp at h
  | complete =>
    simp only [Proc.step] at h
    split at h
    · simp only [Option.some.injEq] at h
      subst h
      exact hs
    · simp at h
  | signal =>
    simp only [Proc.step] at h
    split at h
    · simp at h
    · simp only [Option.some.injEq] at h
      subst h
      exact hs
  | stopChanCloses =>
    simp only [Proc.step] at h
    split at h
    · simp at h
    · simp only [Option.some.injEq] at h
      subst h
      intro _
      rfl
  | mainReturns =>
    simp only [Proc.step] at h
    split at h
    · rename_i hc
      simp only [Option.some.injEq] at h
      subst h
      intro _
      simp only [Bool.and_eq_true] at hc
      exact hc.1
    · simp at h

/-- The part of C9 that holds: in every run, `main` has returned only if
`q.StopChan` was closed; the signal alone never makes it return. -/
theorem returned_only_after_stopChan (evs : List Event) :
    ∀ s t : Proc, (s.returned = true → s.stopChan = true) → Proc.run s evs = some t →
      t.returned = true → t.stopChan = true := by
  induction evs with
  | nil =>
    intro s t hs h
    simp only [Proc.run, Option.some.injEq] at h
    subst h
    exact hs
  | cons e evs ih =>
    intro s t hs h
    simp only [Proc.run] at h
    cases hst : s.step e with
    | none =>
      rw [hst] at h
      simp at h
    | some u =>
      rw [hst] at h
      exact ih u t (step_keeps_returned_after_stopChan s u e hs hst) h

/-- When no callback is in flight as the signal is handled, `updater.Stop()`
does what it is there for: no further cycle starts. -/
theorem no_cycle_once_stopped_idle (evs : List Event) :
    ∀ s t : Proc, s.updater = Timer.idle → s.ticking = false → Proc.run s evs = some t →
      t.cycles = s.cycles := by
  induction evs with
  | nil =>
    intro s t _ _ h
    simp only [Proc.run, Option.some.injEq] at h
    subst h
    rfl
  | cons e evs ih =>
    intro s t hu ht h
    simp only [Proc.run] at h
    cases hst : s.step e with
    | none =>
      rw [hst] at h
      simp at h
    | some u =>
      rw [hst] at h
      have hk : u.updater = Timer.idle ∧ u.ticking = false ∧ u.cycles = s.cycles := by
        cases e with
        | fire => simp [Proc.step, hu] at hst
        | complete => simp [Proc.step, ht] at hst
        | signal =>
          simp only [Proc.step] at hst
          split at hst
          · simp at hst
          · simp only [Option.some.injEq] at hst
            subst hst
            exact ⟨rfl, ht, rfl⟩
        | stopChanCloses =>
          simp only [Proc.step] at hst
          split at hst
          · simp at hst
          · simp only [Option.some.injEq] at hst
            subst hst
            exact ⟨hu, ht, rfl⟩
        | mainReturns =>
          simp only [Proc.step] at hst
          split at hst
          · simp only [Option.some.injEq] at hst
            subst hst
            exact ⟨hu, ht, rfl⟩
          · simp at hst
      rw [ih u t hk.1 hk.2.1 h, hk.2.2]

end GoNSQCounter
